import Mathlib

/-!
Shallow embedding of `jbexdp/go-multicall` (`caller.go`).

The repository batches read-only contract calls through a Multicall3
contract.  `caller.go` contains:

* `chunkInputs` — a generic pure chunking function;
* `Caller.Call` / `Caller.TryCall` — pack each call, invoke the remote
  aggregation entry point (`Aggregate3` / `TryAggregate`) once, then walk
  the response entries in order, setting `calls[i].Failed = !result.Success`
  and unpacking each entry's return bytes, aborting on the first unpack
  error;
* `Caller.CallChunked` / `Caller.TryCallChunked` — iterate the chunks in
  order, sleeping `cooldown` before every chunk except the first, aborting
  with a chunk-indexed error on the first chunk failure.

External collaborators (the remote aggregation contract and the per-call
ABI codec) are modelled as oracle functions carried by the state.  Go's
in-place mutation of the shared `*Call` slice is rendered as explicit
state passing: every operation returns the full (possibly mutated) list of
call records.  A Go index-out-of-range panic is rendered as `none`.
`time.Sleep` and per-chunk submission are recorded in an event trace.
-/

namespace Multicall

/-- Raw ABI-encoded bytes (`[]byte`). -/
abbrev Bytes := List Nat

/-- Error payloads (`error` messages). -/
abbrev Err := String

/-- One call record (`multicall.Call`): target contract identity, the
per-call ABI codec capabilities, the per-call failure tolerance flag
`CanFail`, and the mutable outcome fields `Failed` and the decoded
outputs. -/
structure Call where
  target : Nat
  packResult : Except Err Bytes
  decode : Bytes → Except Err Nat
  canFail : Bool
  failed : Bool
  outputs : Option Nat

instance : Inhabited Call :=
  ⟨{ target := 0, packResult := .ok [], decode := fun _ => .ok 0,
     canFail := false, failed := false, outputs := none }⟩

/-- `Call.Pack`: serialize this call's arguments to bytes (outcome of the
external codec, carried by the record). -/
def Call.pack (c : Call) : Except Err Bytes := c.packResult

/-- Modelled from the spec: `Call.Unpack` lives in the repository's
`call.go`, which is not among the provided source files.  Per the spec, a
call that is already marked failed keeps its outputs "empty/undecoded" and
unpacking is not an error ("calls may individually report `failed=true`
with empty/undecoded outputs, and the operation still succeeds overall");
otherwise the call's external decode capability populates the typed
output fields. -/
def Call.unpack (c : Call) (b : Bytes) : Except Err Call :=
  if c.failed then .ok c
  else
    match c.decode b with
    | .ok v => .ok { c with outputs := some v }
    | .error e => .error e

/-- The immutable identity of a call record: everything except the
mutable outcome fields `failed` and `outputs`. -/
def Call.ident (c : Call) : Nat × Except Err Bytes × (Bytes → Except Err Nat) × Bool :=
  (c.target, c.packResult, c.decode, c.canFail)

/-- Wire request entry for strict mode (`Multicall3Call3`). -/
structure Multicall3Call3 where
  target : Nat
  allowFailure : Bool
  callData : Bytes
deriving DecidableEq

/-- Wire request entry for best-effort mode (`Multicall3Call`). -/
structure Multicall3Call where
  target : Nat
  callData : Bytes
deriving DecidableEq

/-- Wire response entry (`Multicall3Result`): success flag plus raw
return bytes. -/
structure AggResult where
  success : Bool
  returnData : Bytes
deriving DecidableEq

/-- The remote aggregation contract binding
(`contract_multicall.Interface`), as oracles for its two entry points. -/
structure Contract where
  aggregate3 : List Multicall3Call3 → Except Err (List AggResult)
  tryAggregate : Bool → List Multicall3Call → Except Err (List AggResult)

/-- The `Caller` facade: owns the remote aggregation contract binding. -/
structure Caller where
  contract : Contract

/-- Structured rendering of the `fmt.Errorf` error values produced in
`caller.go`, one constructor per formatting site. -/
inductive CallError where
  | packErr (i : Nat) (e : Err)
  | remoteErr (e : Err)
  | unpackErr (i : Nat) (e : Err)
  | chunkErr (i : Nat) (e : CallError)
deriving DecidableEq

/-- The pack loop of `Caller.Call`: build one `Multicall3Call3` request
entry per call, aborting with an indexed error on the first pack
failure.  `i` is the running loop index. -/
def packCalls3 : List Call → Nat → Except CallError (List Multicall3Call3)
  | [], _ => .ok []
  | c :: cs, i =>
    match c.pack with
    | .error e => .error (.packErr i e)
    | .ok b =>
      match packCalls3 cs (i + 1) with
      | .error e => .error e
      | .ok rest => .ok ({ target := c.target, allowFailure := c.canFail, callData := b } :: rest)

/-- The pack loop of `Caller.TryCall`: build one `Multicall3Call` request
entry per call (no per-call tolerance flag), aborting with an indexed
error on the first pack failure. -/
def packCallsTry : List Call → Nat → Except CallError (List Multicall3Call)
  | [], _ => .ok []
  | c :: cs, i =>
    match c.pack with
    | .error e => .error (.packErr i e)
    | .ok b =>
      match packCallsTry cs (i + 1) with
      | .error e => .error e
      | .ok rest => .ok ({ target := c.target, callData := b } :: rest)

/-- The response loop shared verbatim by `Caller.Call` and
`Caller.TryCall`: for each response entry at loop index `i`, set
`calls[i].Failed = !result.Success`, then unpack the entry's return bytes
into the call, aborting with the indexed unpack error on the first
failure (mutations made so far stay visible).  Indexing `calls[i]` is
unguarded in the source; running past the end of `calls` is a panic,
rendered as `none`.  Response entries beyond the processed ones leave the
remaining calls untouched. -/
def applyResults : List Call → List AggResult → Nat → Option (List Call × Option (Nat × Err))
  | calls, [], _ => some (calls, none)
  | [], _ :: _, _ => none
  | c :: cs, r :: rs, i =>
    let c1 := { c with failed := !r.success }
    match c1.unpack r.returnData with
    | .error e => some (c1 :: cs, some (i, e))
    | .ok c2 =>
      match applyResults cs rs (i + 1) with
      | none => none
      | some (cs2, st) => some (c2 :: cs2, st)

/-- `Caller.Call`: pack all calls, invoke `Aggregate3` once, then apply
the response entries onto the call records in order.  Returns the (same,
possibly mutated) call list together with an optional error; `none` is a
panic. -/
def Caller.call (caller : Caller) (calls : List Call) :
    Option (List Call × Option CallError) :=
  match packCalls3 calls 0 with
  | .error e => some (calls, some e)
  | .ok multiCalls =>
    match caller.contract.aggregate3 multiCalls with
    | .error e => some (calls, some (.remoteErr e))
    | .ok results =>
      match applyResults calls results 0 with
      | none => none
      | some (calls2, none) => some (calls2, none)
      | some (calls2, some (i, e)) => some (calls2, some (.unpackErr i e))

/-- `Caller.TryCall`: pack all calls (without tolerance flags), invoke
`TryAggregate` once with the shared `requireSuccess` flag, then apply the
response entries exactly as `Caller.Call` does. -/
def Caller.tryCall (caller : Caller) (requireSuccess : Bool) (calls : List Call) :
    Option (List Call × Option CallError) :=
  match packCallsTry calls 0 with
  | .error e => some (calls, some e)
  | .ok multiCalls =>
    match caller.contract.tryAggregate requireSuccess multiCalls with
    | .error e => some (calls, some (.remoteErr e))
    | .ok results =>
      match applyResults calls results 0 with
      | none => none
      | some (calls2, none) => some (calls2, none)
      | some (calls2, some (i, e)) => some (calls2, some (.unpackErr i e))

/-- `chunkInputs`: split `inputs` into chunks of `chunkSize` (a Go `int`,
hence `Int`).  Empty input gives no chunks; a non-positive size, fewer
than two inputs, or a size exceeding the input length gives the whole
input as a single chunk; otherwise `len/size` full chunks followed by a
`len%size`-sized trailing chunk when the remainder is nonzero. -/
def chunkInputs {T : Type} (chunkSize : Int) (inputs : List T) : List (List T) :=
  if inputs.length = 0 then []
  else if chunkSize ≤ 0 ∨ inputs.length < 2 ∨ (inputs.length : Int) < chunkSize then
    [inputs]
  else
    let size := chunkSize.toNat
    let lastChunkSize := inputs.length % size
    let chunkCount := inputs.length / size
    ((List.range chunkCount).map fun i => (inputs.drop (i * size)).take size)
      ++ if 0 < lastChunkSize then
           [(inputs.drop (chunkCount * size)).take lastChunkSize]
         else []

/-- Observable events of a chunked operation: the blocking `time.Sleep`
pacing pause, and the processing of chunk `i` (one `Caller.Call` /
`Caller.TryCall` invocation). -/
inductive Ev where
  | sleep (d : Int)
  | submit (i : Nat)
deriving DecidableEq

/-- True exactly on pacing-sleep events. -/
def Ev.isSleep : Ev → Bool
  | .sleep _ => true
  | .submit _ => false

/-- The chunk loop shared by `Caller.CallChunked` and
`Caller.TryCallChunked`, parameterized by the per-chunk operation `step`
(`Caller.Call` with fixed opts, resp. `Caller.TryCall` with fixed opts
and `requireSuccess`).  `i` is the chunk index, `allCalls` the
concatenation of the already-processed (mutated) chunks.  Before every
chunk except the first, a positive cooldown records a sleep.  On a chunk
error the whole (in-place mutated) original list — processed prefix,
partially mutated failing chunk, untouched remainder — is returned with a
chunk-indexed error; on success the concatenated chunks are returned. -/
def runChunks (step : List Call → Option (List Call × Option CallError)) (cooldown : Int) :
    Nat → List (List Call) → List Call → Option ((List Call × Option CallError) × List Ev)
  | _, [], allCalls => some ((allCalls, none), [])
  | i, chunk :: rest, allCalls =>
    let pacing : List Ev := if 0 < i ∧ 0 < cooldown then [.sleep cooldown] else []
    match step chunk with
    | none => none
    | some (chunk2, some e) =>
      some ((allCalls ++ chunk2 ++ rest.flatten, some (.chunkErr i e)),
            pacing ++ [.submit i])
    | some (chunk2, none) =>
      match runChunks step cooldown (i + 1) rest (allCalls ++ chunk2) with
      | none => none
      | some (out, evs) => some (out, pacing ++ [.submit i] ++ evs)

/-- `Caller.CallChunked`: chunk the calls, then run `Caller.Call` on each
chunk in order with cooldown pacing. -/
def Caller.callChunked (caller : Caller) (chunkSize : Int) (cooldown : Int)
    (calls : List Call) : Option ((List Call × Option CallError) × List Ev) :=
  runChunks caller.call cooldown 0 (chunkInputs chunkSize calls) []

/-- `Caller.TryCallChunked`: chunk the calls, then run `Caller.TryCall`
on each chunk in order with cooldown pacing. -/
def Caller.tryCallChunked (caller : Caller) (requireSuccess : Bool) (chunkSize : Int)
    (cooldown : Int) (calls : List Call) :
    Option ((List Call × Option CallError) × List Ev) :=
  runChunks (caller.tryCall requireSuccess) cooldown 0 (chunkInputs chunkSize calls) []

/-- The body of one response-loop iteration, as a function of the call
record and its response entry: flag the call, then unpack its return
bytes. -/
def stepCall (c : Call) (r : AggResult) : Except Err Call :=
  ({ c with failed := !r.success }).unpack r.returnData

/-- Default call record used only as the `List.getD` fallback in
statements about in-bounds positions. -/
def dCall : Call := default

/-- Default response entry used only as the `List.getD` fallback. -/
def dRes : AggResult := { success := true, returnData := [] }

/-- The event trace a chunked operation is specified to produce when it
processes `K` chunks starting at chunk index `start`: each chunk is
submitted in order, preceded by one pacing sleep of duration `d` exactly
when it is not the overall first chunk and `d` is positive. -/
def pacedTraceFrom (d : Int) (start K : Nat) : List Ev :=
  match K with
  | 0 => []
  | K + 1 =>
    (if 0 < start ∧ 0 < d then [Ev.sleep d] else [])
      ++ [Ev.submit start] ++ pacedTraceFrom d (start + 1) K

/-- The event trace of a whole chunked operation over `K` chunks. -/
def pacedTrace (d : Int) (K : Nat) : List Ev :=
  pacedTraceFrom d 0 K

/-- Specified outcome of the response phase of `Caller.Call` /
`Caller.TryCall` after a successful remote aggregation returning
`results`: the call list keeps its length, and either every entry is
processed — each `calls[i].failed` set to the negation of the entry's
success flag — with no error, or the operation stops at the first
failing unpack `j`, reporting `unpackErr j`, with flags set for all
positions up to and including `j`, entries before `j` fully processed,
and every record after `j` untouched. -/
def RespOutcome (calls : List Call) (results : List AggResult)
    (calls2 : List Call) (st : Option CallError) : Prop :=
  calls2.length = calls.length ∧
  ((st = none ∧
      (∀ k, k < results.length →
        (calls2.getD k dCall).failed = !(results.getD k dRes).success ∧
        stepCall (calls.getD k dCall) (results.getD k dRes) = .ok (calls2.getD k dCall)) ∧
      (∀ k, results.length ≤ k → calls2.getD k dCall = calls.getD k dCall)) ∨
   (∃ j e, st = some (.unpackErr j e) ∧ j < results.length ∧
      (∀ k, k ≤ j → (calls2.getD k dCall).failed = !(results.getD k dRes).success) ∧
      (∀ k, k < j →
        stepCall (calls.getD k dCall) (results.getD k dRes) = .ok (calls2.getD k dCall)) ∧
      stepCall (calls.getD j dCall) (results.getD j dRes) = .error e ∧
      (∀ k, j < k → calls2.getD k dCall = calls.getD k dCall)))

/-! ### Concrete instances used in witnesses and counterexamples -/

/-- A call record with target `t`, call data `[t]`, a decode capability
that always succeeds with output `0`, tolerance flag set, and fresh
outcome fields. -/
def mkCall (t : Nat) : Call :=
  { target := t, packResult := .ok [t], decode := fun _ => .ok 0,
    canFail := true, failed := false, outputs := none }

/-- A call record whose decode capability always fails. -/
def badDecodeCall : Call :=
  { mkCall 1 with decode := fun _ => .error "bad" }

/-- A contract binding whose remote invocations always fail. -/
def callerFail : Caller :=
  ⟨{ aggregate3 := fun _ => .error "boom", tryAggregate := fun _ _ => .error "boom" }⟩

/-- A contract binding that reports success with empty return bytes for
every submitted entry. -/
def callerOk : Caller :=
  ⟨{ aggregate3 := fun mc => .ok (mc.map fun _ => { success := true, returnData := [] }),
     tryAggregate := fun _ mc => .ok (mc.map fun _ => { success := true, returnData := [] }) }⟩

/-- A contract binding that fails single-entry requests remotely and
answers every entry of larger requests with `success = false`: with five
calls and chunk size two, chunks 0 and 1 succeed remotely while chunk 2
(the single-call trailing chunk) fails remotely. -/
def callerC9 : Caller :=
  ⟨{ aggregate3 := fun mc =>
        if mc.length = 1 then .error "boom"
        else .ok (mc.map fun _ => { success := false, returnData := [] }),
     tryAggregate := fun _ _ => .error "boom" }⟩

/-- A contract binding that always returns exactly one response entry,
regardless of how many request entries were submitted. -/
def callerOneResult : Caller :=
  ⟨{ aggregate3 := fun _ => .ok [{ success := true, returnData := [] }],
     tryAggregate := fun _ _ => .ok [{ success := true, returnData := [] }] }⟩

/-- A contract binding whose best-effort entry point reports three
entries: two successes and one (middle) per-call failure. -/
def callerTryMixed : Caller :=
  ⟨{ aggregate3 := fun _ => .error "x",
     tryAggregate := fun _ _ =>
       .ok [{ success := true, returnData := [5] },
            { success := false, returnData := [] },
            { success := true, returnData := [7] }] }⟩

/-! ### Chunker lemmas -/

/-- Concatenating the first `k` size-`s` slices recovers the first `k*s`
elements. -/
lemma flatten_range_chunks {T : Type} (s : Nat) (l : List T) :
    ∀ k, ((List.range k).map fun i => (l.drop (i * s)).take s).flatten = l.take (k * s) := by
  intro k
  induction k with
  | zero => simp
  | succ k ih =>
    rw [List.range_succ, List.map_append, List.flatten_append, ih]
    simp only [List.map_cons, List.map_nil, List.flatten_cons, List.flatten_nil,
      List.append_nil]
    rw [← List.take_add, Nat.succ_mul]

/-- Unfolding of `chunkInputs` in the genuine-splitting branch. -/
lemma chunkInputs_main {T : Type} (chunkSize : Int) (l : List T)
    (hs : 0 < chunkSize) (h2 : 2 ≤ l.length) (hle : chunkSize ≤ (l.length : Int)) :
    chunkInputs chunkSize l =
      ((List.range (l.length / chunkSize.toNat)).map
          fun i => (l.drop (i * chunkSize.toNat)).take chunkSize.toNat)
        ++ if 0 < l.length % chunkSize.toNat then
             [(l.drop (l.length / chunkSize.toNat * chunkSize.toNat)).take
                (l.length % chunkSize.toNat)]
           else [] := by
  have h0 : ¬ l.length = 0 := by omega
  have hcond : ¬ (chunkSize ≤ 0 ∨ l.length < 2 ∨ (l.length : Int) < chunkSize) := by
    push_neg
    exact ⟨hs, by omega, hle⟩
  simp only [chunkInputs, if_neg h0, if_neg hcond]

/-- The chunks of `chunkInputs` concatenate back to the input. -/
lemma chunkInputs_flatten {T : Type} (chunkSize : Int) (inputs : List T) :
    (chunkInputs chunkSize inputs).flatten = inputs := by
  by_cases h0 : inputs.length = 0
  · have h : inputs = [] := List.length_eq_zero.mp h0
    subst h
    simp [chunkInputs]
  by_cases hc : chunkSize ≤ 0 ∨ inputs.length < 2 ∨ (inputs.length : Int) < chunkSize
  · simp only [chunkInputs, if_neg h0, if_pos hc]
    simp
  · push_neg at hc
    obtain ⟨hs, h2, hle⟩ := hc
    rw [chunkInputs_main chunkSize inputs hs (by omega) hle]
    rw [List.flatten_append, flatten_range_chunks]
    by_cases hr : 0 < inputs.length % chunkSize.toNat
    · rw [if_pos hr]
      simp only [List.flatten_cons, List.flatten_nil, List.append_nil]
      rw [← List.take_add, Nat.div_add_mod', List.take_length]
    · rw [if_neg hr]
      have hdvd : chunkSize.toNat ∣ inputs.length :=
        Nat.dvd_of_mod_eq_zero (by omega)
      rw [Nat.div_mul_cancel hdvd, List.take_length]
      simp

/-- C1: for every chunk size and every input list, concatenating the
chunks produced by `chunkInputs` in order yields exactly the original
input list — same elements, same order, nothing duplicated or omitted,
every chunk contiguous in the original order. -/
theorem chunk_partition {T : Type} (chunkSize : Int) (inputs : List T) :
    (chunkInputs chunkSize inputs).flatten = inputs :=
  chunkInputs_flatten chunkSize inputs

/-- C6: `chunkInputs` on an empty input returns zero chunks, and on a
nonempty input with non-positive size, fewer than two items, or size
exceeding the length, returns exactly one chunk holding all items in
original order. -/
theorem chunk_degenerate {T : Type} (chunkSize : Int) (inputs : List T) :
    (inputs = [] → chunkInputs chunkSize inputs = []) ∧
    (inputs ≠ [] →
      (chunkSize ≤ 0 ∨ inputs.length < 2 ∨ (inputs.length : Int) < chunkSize) →
      chunkInputs chunkSize inputs = [inputs]) := by
  constructor
  · intro h
    subst h
    simp [chunkInputs]
  · intro hne hc
    have h0 : ¬ inputs.length = 0 := by
      simpa [List.length_eq_zero] using hne
    simp only [chunkInputs, if_neg h0, if_pos hc]

/-- Witness for C6 at concrete inputs. -/
theorem chunk_degenerate_witness :
    chunkInputs 3 ([] : List Nat) = [] ∧ chunkInputs 0 [7] = [[7]] :=
  ⟨(chunk_degenerate 3 ([] : List Nat)).1 rfl,
   (chunk_degenerate 0 [7]).2 (by decide) (Or.inl (by decide))⟩

/-- C5: with positive size, at least two items, and size at most the
length, `chunkInputs` produces `len/size` chunks of exactly `size` items
each, in order, followed by one trailing chunk of `len%size` items
exactly when that remainder is nonzero; no chunk is empty, and the chunks
concatenate to the input in order. -/
theorem chunk_sizes {T : Type} (chunkSize : Int) (inputs : List T)
    (hs : 0 < chunkSize) (h2 : 2 ≤ inputs.length)
    (hle : chunkSize ≤ (inputs.length : Int)) :
    (chunkInputs chunkSize inputs).length
        = inputs.length / chunkSize.toNat
          + (if inputs.length % chunkSize.toNat = 0 then 0 else 1) ∧
    (∀ c ∈ (chunkInputs chunkSize inputs).take (inputs.length / chunkSize.toNat),
        c.length = chunkSize.toNat) ∧
    (∀ c ∈ (chunkInputs chunkSize inputs).drop (inputs.length / chunkSize.toNat),
        c.length = inputs.length % chunkSize.toNat) ∧
    (chunkInputs chunkSize inputs).flatten = inputs ∧
    (∀ c ∈ chunkInputs chunkSize inputs, c ≠ []) := by
  have hmain := chunkInputs_main chunkSize inputs hs h2 hle
  have hs0 : 0 < chunkSize.toNat := by omega
  have hAlen : ((List.range (inputs.length / chunkSize.toNat)).map
      fun i => (inputs.drop (i * chunkSize.toNat)).take chunkSize.toNat).length
      = inputs.length / chunkSize.toNat := by
    simp
  have hmemA : ∀ c ∈ (List.range (inputs.length / chunkSize.toNat)).map
      (fun i => (inputs.drop (i * chunkSize.toNat)).take chunkSize.toNat),
      c.length = chunkSize.toNat := by
    intro c hc
    obtain ⟨i, hi, rfl⟩ := List.mem_map.mp hc
    have hi2 : i < inputs.length / chunkSize.toNat := List.mem_range.mp hi
    have hbound : (i + 1) * chunkSize.toNat ≤ inputs.length := by
      calc (i + 1) * chunkSize.toNat
          ≤ inputs.length / chunkSize.toNat * chunkSize.toNat :=
            Nat.mul_le_mul_right _ (by omega)
        _ ≤ inputs.length := Nat.div_mul_le_self _ _
    rw [Nat.succ_mul] at hbound
    simp only [List.length_take, List.length_drop]
    omega
  have hmemB : ∀ c ∈ (if 0 < inputs.length % chunkSize.toNat then
        [(inputs.drop (inputs.length / chunkSize.toNat * chunkSize.toNat)).take
          (inputs.length % chunkSize.toNat)]
      else []), c.length = inputs.length % chunkSize.toNat := by
    intro c hc
    by_cases hr : 0 < inputs.length % chunkSize.toNat
    · rw [if_pos hr] at hc
      have hceq := List.mem_singleton.mp hc
      subst hceq
      have hdm := Nat.div_add_mod' inputs.length chunkSize.toNat
      simp only [List.length_take, List.length_drop]
      omega
    · rw [if_neg hr] at hc
      exact absurd hc (List.not_mem_nil c)
  refine ⟨?_, ?_, ?_, chunkInputs_flatten chunkSize inputs, ?_⟩
  · rw [hmain, List.length_append, hAlen]
    by_cases hr : 0 < inputs.length % chunkSize.toNat
    · rw [if_pos hr, if_neg (by omega)]
      simp
    · rw [if_neg hr, if_pos (by omega)]
      simp
  · intro c hc
    rw [hmain, List.take_left' hAlen] at hc
    exact hmemA c hc
  · intro c hc
    rw [hmain, List.drop_left' hAlen] at hc
    exact hmemB c hc
  · intro c hc
    rw [hmain] at hc
    rcases List.mem_append.mp hc with h | h
    · have := hmemA c h
      intro hnil
      subst hnil
      simp at this
      omega
    · have := hmemB c h
      intro hnil
      by_cases hr : 0 < inputs.length % chunkSize.toNat
      · subst hnil
        simp at this
        omega
      · rw [if_neg hr] at h
        exact absurd h (List.not_mem_nil c)

/-- Witness for C5 at a concrete input (5 items, size 2). -/
theorem chunk_sizes_witness :
    (chunkInputs 2 ([0, 1, 2, 3, 4] : List Nat)).length
        = ([0, 1, 2, 3, 4] : List Nat).length / (2 : Int).toNat
          + (if ([0, 1, 2, 3, 4] : List Nat).length % (2 : Int).toNat = 0 then 0 else 1) ∧
    (∀ c ∈ (chunkInputs 2 ([0, 1, 2, 3, 4] : List Nat)).take
        (([0, 1, 2, 3, 4] : List Nat).length / (2 : Int).toNat),
        c.length = (2 : Int).toNat) ∧
    (∀ c ∈ (chunkInputs 2 ([0, 1, 2, 3, 4] : List Nat)).drop
        (([0, 1, 2, 3, 4] : List Nat).length / (2 : Int).toNat),
        c.length = ([0, 1, 2, 3, 4] : List Nat).length % (2 : Int).toNat) ∧
    (chunkInputs 2 ([0, 1, 2, 3, 4] : List Nat)).flatten = [0, 1, 2, 3, 4] ∧
    (∀ c ∈ chunkInputs 2 ([0, 1, 2, 3, 4] : List Nat), c ≠ []) :=
  chunk_sizes 2 [0, 1, 2, 3, 4] (by decide) (by decide) (by decide)

/-! ### Aggregator lemmas -/

/-- Successful unpack keeps the failure flag and the call identity, and
either leaves the outputs alone (tolerated failure) or stores the decoded
value. -/
lemma unpack_ok {c : Call} {b : Bytes} {c2 : Call} (h : c.unpack b = .ok c2) :
    c2.failed = c.failed ∧ c2.ident = c.ident ∧
      (c2.outputs = c.outputs ∨ ∃ v, c.decode b = .ok v ∧ c2.outputs = some v) := by
  unfold Call.unpack at h
  by_cases hf : c.failed
  · rw [if_pos hf] at h
    injection h with h2
    subst h2
    exact ⟨rfl, rfl, Or.inl rfl⟩
  · rw [if_neg hf] at h
    cases hd : c.decode b with
    | ok v =>
      rw [hd] at h
      injection h with h2
      subst h2
      exact ⟨rfl, rfl, Or.inr ⟨v, rfl, rfl⟩⟩
    | error e =>
      rw [hd] at h
      exact absurd h (by simp)

/-- A failed-flag update does not change a call's identity. -/
lemma ident_setFailed (c : Call) (x : Bool) :
    Call.ident { c with failed := x } = c.ident := rfl

/-- The response loop preserves the length of the call list and every
record's identity: only outcome fields are ever written. -/
lemma applyResults_shape (results : List AggResult) :
    ∀ (calls : List Call) (i : Nat) (calls2 : List Call) (st : Option (Nat × Err)),
      applyResults calls results i = some (calls2, st) →
      calls2.length = calls.length ∧
      ∀ k, (calls2.getD k dCall).ident = (calls.getD k dCall).ident := by
  induction results with
  | nil =>
    intro calls i calls2 st h
    have he : applyResults calls [] i = some (calls, none) := by
      cases calls <;> rfl
    rw [he] at h
    injection h with h2
    injection h2 with ha hb
    subst ha
    exact ⟨rfl, fun k => rfl⟩
  | cons r rs ih =>
    intro calls i calls2 st h
    cases calls with
    | nil => exact absurd h (by simp [applyResults])
    | cons c cs =>
      rw [applyResults] at h
      cases hstep : ({ c with failed := !r.success }).unpack r.returnData with
      | error e =>
        rw [hstep] at h
        injection h with h2
        injection h2 with ha hb
        subst ha
        refine ⟨by simp, ?_⟩
        intro k
        cases k with
        | zero => simp [List.getD_cons_zero, ident_setFailed]
        | succ k => simp [List.getD_cons_succ]
      | ok c2 =>
        rw [hstep] at h
        cases hrec : applyResults cs rs (i + 1) with
        | none =>
          rw [hrec] at h
          exact absurd h (by simp)
        | some out =>
          rw [hrec] at h
          obtain ⟨cs2, st2⟩ := out
          injection h with h2
          injection h2 with ha hb
          subst ha
          obtain ⟨hlen, hid⟩ := ih cs (i + 1) cs2 st2 hrec
          refine ⟨by simp [hlen], ?_⟩
          intro k
          cases k with
          | zero =>
            have h1 := (unpack_ok hstep).2.1
            simpa [List.getD_cons_zero, ident_setFailed] using h1
          | succ k => simpa [List.getD_cons_succ] using hid k

/-- Full characterization of the response loop when the response has at
most as many entries as there are calls: it returns `some`, keeps the
list length, and either processes every entry successfully, or stops at
the first failing unpack, reporting its (base-shifted) index and leaving
every later record untouched. -/
lemma applyResults_char (results : List AggResult) :
    ∀ (calls : List Call) (base : Nat),
      results.length ≤ calls.length →
      ∃ calls2 st, applyResults calls results base = some (calls2, st) ∧
        calls2.length = calls.length ∧
        ((st = none ∧
            (∀ k, k < results.length →
              stepCall (calls.getD k dCall) (results.getD k dRes)
                = .ok (calls2.getD k dCall)) ∧
            (∀ k, results.length ≤ k → calls2.getD k dCall = calls.getD k dCall)) ∨
         (∃ p e, st = some (base + p, e) ∧ p < results.length ∧
            (∀ k, k < p →
              stepCall (calls.getD k dCall) (results.getD k dRes)
                = .ok (calls2.getD k dCall)) ∧
            calls2.getD p dCall
              = { calls.getD p dCall with failed := !(results.getD p dRes).success } ∧
            stepCall (calls.getD p dCall) (results.getD p dRes) = .error e ∧
            (∀ k, p < k → calls2.getD k dCall = calls.getD k dCall))) := by
  induction results with
  | nil =>
    intro calls base _
    refine ⟨calls, none, by cases calls <;> rfl, rfl, Or.inl ⟨rfl, ?_, ?_⟩⟩
    · intro k hk
      exact absurd hk (by simp)
    · intro k _
      rfl
  | cons r rs ih =>
    intro calls base h
    cases calls with
    | nil => simp at h
    | cons c cs =>
      cases hstep : ({ c with failed := !r.success }).unpack r.returnData with
      | error e =>
        refine ⟨{ c with failed := !r.success } :: cs, some (base, e), ?_, by simp,
          Or.inr ⟨0, e, by simp, by simp, ?_, ?_, ?_, ?_⟩⟩
        · rw [applyResults, hstep]
        · intro k hk
          exact absurd hk (by simp)
        · simp [List.getD_cons_zero]
        · simpa [stepCall, List.getD_cons_zero, dRes] using hstep
        · intro k hk
          cases k with
          | zero => exact absurd hk (by simp)
          | succ k => simp [List.getD_cons_succ]
      | ok c2 =>
        have hrs : rs.length ≤ cs.length := by simpa using h
        obtain ⟨cs2, st, heq, hlen, hcase⟩ := ih cs (base + 1) hrs
        refine ⟨c2 :: cs2, st, ?_, by simp [hlen], ?_⟩
        · rw [applyResults, hstep, heq]
        · rcases hcase with ⟨hst, hsteps, hrest⟩ | ⟨p, e, hst, hp, hsteps, hflag, herr, hrest⟩
          · refine Or.inl ⟨hst, ?_, ?_⟩
            · intro k hk
              simp only [List.length_cons] at hk
              cases k with
              | zero => simpa [stepCall, List.getD_cons_zero, dRes] using hstep
              | succ k =>
                simpa [List.getD_cons_succ] using hsteps k (by omega)
            · intro k hk
              simp only [List.length_cons] at hk
              cases k with
              | zero => exact absurd hk (by omega)
              | succ k =>
                simpa [List.getD_cons_succ] using hrest k (by omega)
          · have hshift : base + 1 + p = base + (p + 1) := by omega
            rw [hshift] at hst
            refine Or.inr ⟨p + 1, e, hst, by simpa using Nat.succ_lt_succ hp, ?_, ?_, ?_, ?_⟩
            · intro k hk
              cases k with
              | zero => simpa [stepCall, List.getD_cons_zero, dRes] using hstep
              | succ k =>
                simpa [List.getD_cons_succ] using hsteps k (by omega)
            · simpa [List.getD_cons_succ] using hflag
            · simpa [List.getD_cons_succ] using herr
            · intro k hk
              cases k with
              | zero => exact absurd hk (by omega)
              | succ k =>
                simpa [List.getD_cons_succ] using hrest k (by omega)

/-- A successful strict-mode pack produces one request entry per call. -/
lemma packCalls3_ok_length :
    ∀ (calls : List Call) (i : Nat) (mc : List Multicall3Call3),
      packCalls3 calls i = .ok mc → mc.length = calls.length := by
  intro calls
  induction calls with
  | nil =>
    intro i mc h
    injection h with h2
    subst h2
    rfl
  | cons c cs ih =>
    intro i mc h
    rw [packCalls3] at h
    cases hp : c.pack with
    | error e =>
      rw [hp] at h
      exact absurd h (by simp)
    | ok b =>
      rw [hp] at h
      cases hrec : packCalls3 cs (i + 1) with
      | error e =>
        rw [hrec] at h
        exact absurd h (by simp)
      | ok rest =>
        rw [hrec] at h
        injection h with h2
        subst h2
        simpa using ih (i + 1) rest hrec

/-- A successful best-effort pack produces one request entry per call. -/
lemma packCallsTry_ok_length :
    ∀ (calls : List Call) (i : Nat) (mc : List Multicall3Call),
      packCallsTry calls i = .ok mc → mc.length = calls.length := by
  intro calls
  induction calls with
  | nil =>
    intro i mc h
    injection h with h2
    subst h2
    rfl
  | cons c cs ih =>
    intro i mc h
    rw [packCallsTry] at h
    cases hp : c.pack with
    | error e =>
      rw [hp] at h
      exact absurd h (by simp)
    | ok b =>
      rw [hp] at h
      cases hrec : packCallsTry cs (i + 1) with
      | error e =>
        rw [hrec] at h
        exact absurd h (by simp)
      | ok rest =>
        rw [hrec] at h
        injection h with h2
        subst h2
        simpa using ih (i + 1) rest hrec

/-- A successful response-loop step leaves the failure flag at the
negation of the entry's success flag. -/
lemma stepCall_ok_failed {c : Call} {r : AggResult} {c2 : Call}
    (h : stepCall c r = .ok c2) : c2.failed = !r.success :=
  (unpack_ok h).1

/-- Whatever `Caller.Call` returns (short of a panic) has the same length
and the same per-record identities as its input: only outcome fields are
written. -/
lemma call_shape (caller : Caller) (calls calls2 : List Call) (st : Option CallError)
    (h : caller.call calls = some (calls2, st)) :
    calls2.length = calls.length ∧
    ∀ k, (calls2.getD k dCall).ident = (calls.getD k dCall).ident := by
  unfold Caller.call at h
  cases hp : packCalls3 calls 0 with
  | error e =>
    rw [hp] at h
    injection h with h2
    injection h2 with ha hb
    subst ha
    exact ⟨rfl, fun k => rfl⟩
  | ok mc =>
    rw [hp] at h
    dsimp only at h
    cases ha : caller.contract.aggregate3 mc with
    | error e =>
      rw [ha] at h
      injection h with h2
      injection h2 with hb hc
      subst hb
      exact ⟨rfl, fun k => rfl⟩
    | ok results =>
      rw [ha] at h
      dsimp only at h
      cases har : applyResults calls results 0 with
      | none =>
        rw [har] at h
        exact absurd h (by simp)
      | some out =>
        rw [har] at h
        obtain ⟨calls2', st'⟩ := out
        have hshape := applyResults_shape results calls 0 calls2' st' har
        cases st' with
        | none =>
          injection h with h2
          injection h2 with hb hc
          subst hb
          exact hshape
        | some pe =>
          obtain ⟨i, e⟩ := pe
          injection h with h2
          injection h2 with hb hc
          subst hb
          exact hshape

/-- Whatever `Caller.TryCall` returns (short of a panic) has the same
length and the same per-record identities as its input. -/
lemma tryCall_shape (caller : Caller) (rs : Bool) (calls calls2 : List Call)
    (st : Option CallError) (h : caller.tryCall rs calls = some (calls2, st)) :
    calls2.length = calls.length ∧
    ∀ k, (calls2.getD k dCall).ident = (calls.getD k dCall).ident := by
  unfold Caller.tryCall at h
  cases hp : packCallsTry calls 0 with
  | error e =>
    rw [hp] at h
    injection h with h2
    injection h2 with ha hb
    subst ha
    exact ⟨rfl, fun k => rfl⟩
  | ok mc =>
    rw [hp] at h
    dsimp only at h
    cases ha : caller.contract.tryAggregate rs mc with
    | error e =>
      rw [ha] at h
      injection h with h2
      injection h2 with hb hc
      subst hb
      exact ⟨rfl, fun k => rfl⟩
    | ok results =>
      rw [ha] at h
      dsimp only at h
      cases har : applyResults calls results 0 with
      | none =>
        rw [har] at h
        exact absurd h (by simp)
      | some out =>
        rw [har] at h
        obtain ⟨calls2', st'⟩ := out
        have hshape := applyResults_shape results calls 0 calls2' st' har
        cases st' with
        | none =>
          injection h with h2
          injection h2 with hb hc
          subst hb
          exact hshape
        | some pe =>
          obtain ⟨i, e⟩ := pe
          injection h with h2
          injection h2 with hb hc
          subst hb
          exact hshape

/-- C7: if the remote aggregation invocation fails, `Caller.Call` and
`Caller.TryCall` return the original calls list — literally unchanged, so
no outcome field of any record is modified — together with the wrapped
remote error. -/
theorem remote_error_untouched :
    (∀ (caller : Caller) (calls : List Call) (mc : List Multicall3Call3) (e : Err),
      packCalls3 calls 0 = .ok mc →
      caller.contract.aggregate3 mc = .error e →
      caller.call calls = some (calls, some (.remoteErr e))) ∧
    (∀ (caller : Caller) (rs : Bool) (calls : List Call) (mc : List Multicall3Call) (e : Err),
      packCallsTry calls 0 = .ok mc →
      caller.contract.tryAggregate rs mc = .error e →
      caller.tryCall rs calls = some (calls, some (.remoteErr e))) := by
  constructor
  · intro caller calls mc e hp ha
    unfold Caller.call
    rw [hp]
    dsimp only
    rw [ha]
  · intro caller rs calls mc e hp ha
    unfold Caller.tryCall
    rw [hp]
    dsimp only
    rw [ha]

/-- Witness for C7 at a concrete failing contract binding. -/
theorem remote_error_untouched_witness :
    callerFail.call [mkCall 0] = some ([mkCall 0], some (.remoteErr "boom")) ∧
    callerFail.tryCall true [mkCall 0] = some ([mkCall 0], some (.remoteErr "boom")) :=
  ⟨remote_error_untouched.1 callerFail [mkCall 0]
      [{ target := 0, allowFailure := true, callData := [0] }] "boom" rfl rfl,
   remote_error_untouched.2 callerFail true [mkCall 0]
      [{ target := 0, callData := [0] }] "boom" rfl rfl⟩

/-- C10: the unguarded `calls[i]` accesses in the response loops of
`Caller.Call` and `Caller.TryCall` stay in bounds — the operations never
panic — whenever the remote aggregation returns at most one result entry
per submitted request entry; without that precondition the access is not
total, as the concrete contract returning one entry for an empty request
shows. -/
theorem index_access_safety :
    (∀ (caller : Caller) (calls : List Call),
      (∀ mc res, caller.contract.aggregate3 mc = .ok res → res.length ≤ mc.length) →
      (caller.call calls).isSome) ∧
    (∀ (caller : Caller) (rs : Bool) (calls : List Call),
      (∀ mc res, caller.contract.tryAggregate rs mc = .ok res → res.length ≤ mc.length) →
      (caller.tryCall rs calls).isSome) ∧
    callerOneResult.call [] = none ∧
    callerOneResult.tryCall true [] = none := by
  refine ⟨?_, ?_, rfl, rfl⟩
  · intro caller calls hbound
    unfold Caller.call
    split
    · simp
    · rename_i mc hp
      split
      · simp
      · rename_i results ha
        have hle : results.length ≤ calls.length := by
          have h1 := hbound mc results ha
          have h2 := packCalls3_ok_length calls 0 mc hp
          omega
        obtain ⟨calls2, st, heq, -, -⟩ := applyResults_char results calls 0 hle
        rw [heq]
        cases st with
        | none => simp
        | some pe =>
          obtain ⟨i, e⟩ := pe
          simp
  · intro caller rs calls hbound
    unfold Caller.tryCall
    split
    · simp
    · rename_i mc hp
      split
      · simp
      · rename_i results ha
        have hle : results.length ≤ calls.length := by
          have h1 := hbound mc results ha
          have h2 := packCallsTry_ok_length calls 0 mc hp
          omega
        obtain ⟨calls2, st, heq, -, -⟩ := applyResults_char results calls 0 hle
        rw [heq]
        cases st with
        | none => simp
        | some pe =>
          obtain ⟨i, e⟩ := pe
          simp

/-- Witness for C10 at a concrete length-respecting contract binding. -/
theorem index_access_safety_witness :
    (callerOk.call [mkCall 0]).isSome ∧ (callerOk.tryCall false [mkCall 0]).isSome := by
  constructor
  · refine index_access_safety.1 callerOk [mkCall 0] ?_
    intro mc res h
    have h2 : Except.ok (ε := Err)
        (mc.map fun _ => ({ success := true, returnData := [] } : AggResult)) = .ok res := h
    injection h2 with h3
    subst h3
    simp
  · refine index_access_safety.2.1 callerOk false [mkCall 0] ?_
    intro mc res h
    have h2 : Except.ok (ε := Err)
        (mc.map fun _ => ({ success := true, returnData := [] } : AggResult)) = .ok res := h
    injection h2 with h3
    subst h3
    simp

/-- C2: in strict mode (and identically in best-effort mode), after a
successful remote aggregation the response loop sets each processed
record's failure flag to the negation of its entry's success flag, in
order; the first failing unpack aborts immediately with an error indexing
that call, later entries are not unpacked (their records stay untouched),
and the list is returned with mutations up to the failing index visible. -/
theorem strict_unpack_abort :
    (∀ (caller : Caller) (calls : List Call) (mc : List Multicall3Call3)
        (results : List AggResult),
      packCalls3 calls 0 = .ok mc →
      caller.contract.aggregate3 mc = .ok results →
      results.length ≤ calls.length →
      ∃ calls2 st, caller.call calls = some (calls2, st) ∧
        RespOutcome calls results calls2 st) ∧
    (∀ (caller : Caller) (rs : Bool) (calls : List Call) (mc : List Multicall3Call)
        (results : List AggResult),
      packCallsTry calls 0 = .ok mc →
      caller.contract.tryAggregate rs mc = .ok results →
      results.length ≤ calls.length →
      ∃ calls2 st, caller.tryCall rs calls = some (calls2, st) ∧
        RespOutcome calls results calls2 st) := by
  constructor
  · intro caller calls mc results hp ha hle
    obtain ⟨calls2, st0, heq, hlen, hcase⟩ := applyResults_char results calls 0 hle
    simp only [Nat.zero_add] at hcase
    rcases hcase with ⟨hst, hsteps, hrest⟩ | ⟨p, e, hst, hplt, hsteps, hflag, herr, hrest⟩
    · subst hst
      refine ⟨calls2, none, ?_, hlen, Or.inl ⟨rfl, ?_, hrest⟩⟩
      · unfold Caller.call
        rw [hp]
        dsimp only
        rw [ha]
        dsimp only
        rw [heq]
      · intro k hk
        exact ⟨stepCall_ok_failed (hsteps k hk), hsteps k hk⟩
    · subst hst
      refine ⟨calls2, some (.unpackErr p e), ?_, hlen,
        Or.inr ⟨p, e, rfl, hplt, ?_, hsteps, herr, hrest⟩⟩
      · unfold Caller.call
        rw [hp]
        dsimp only
        rw [ha]
        dsimp only
        rw [heq]
      · intro k hk
        rcases Nat.lt_or_ge k p with hlt | hge
        · exact stepCall_ok_failed (hsteps k hlt)
        · have hkp : k = p := by omega
          subst hkp
          rw [hflag]
  · intro caller rs calls mc results hp ha hle
    obtain ⟨calls2, st0, heq, hlen, hcase⟩ := applyResults_char results calls 0 hle
    simp only [Nat.zero_add] at hcase
    rcases hcase with ⟨hst, hsteps, hrest⟩ | ⟨p, e, hst, hplt, hsteps, hflag, herr, hrest⟩
    · subst hst
      refine ⟨calls2, none, ?_, hlen, Or.inl ⟨rfl, ?_, hrest⟩⟩
      · unfold Caller.tryCall
        rw [hp]
        dsimp only
        rw [ha]
        dsimp only
        rw [heq]
      · intro k hk
        exact ⟨stepCall_ok_failed (hsteps k hk), hsteps k hk⟩
    · subst hst
      refine ⟨calls2, some (.unpackErr p e), ?_, hlen,
        Or.inr ⟨p, e, rfl, hplt, ?_, hsteps, herr, hrest⟩⟩
      · unfold Caller.tryCall
        rw [hp]
        dsimp only
        rw [ha]
        dsimp only
        rw [heq]
      · intro k hk
        rcases Nat.lt_or_ge k p with hlt | hge
        · exact stepCall_ok_failed (hsteps k hlt)
        · have hkp : k = p := by omega
          subst hkp
          rw [hflag]

/-- Witness for C2: a two-call batch whose second call's decode
capability fails. -/
theorem strict_unpack_abort_witness :
    (∃ calls2 st, callerOk.call [mkCall 0, badDecodeCall] = some (calls2, st) ∧
      RespOutcome [mkCall 0, badDecodeCall]
        [{ success := true, returnData := [] }, { success := true, returnData := [] }]
        calls2 st) ∧
    (∃ calls2 st, callerOk.tryCall false [mkCall 0, badDecodeCall] = some (calls2, st) ∧
      RespOutcome [mkCall 0, badDecodeCall]
        [{ success := true, returnData := [] }, { success := true, returnData := [] }]
        calls2 st) :=
  ⟨strict_unpack_abort.1 callerOk [mkCall 0, badDecodeCall]
      [{ target := 0, allowFailure := true, callData := [0] },
       { target := 1, allowFailure := true, callData := [1] }]
      [{ success := true, returnData := [] }, { success := true, returnData := [] }]
      rfl rfl (by decide),
   strict_unpack_abort.2 callerOk false [mkCall 0, badDecodeCall]
      [{ target := 0, callData := [0] }, { target := 1, callData := [1] }]
      [{ success := true, returnData := [] }, { success := true, returnData := [] }]
      rfl rfl (by decide)⟩

/-- Unpack of an unflagged call applies the decode capability. -/
lemma unpack_not_failed {c : Call} (h : c.failed = false) {b : Bytes} {v : Nat}
    (hd : c.decode b = .ok v) : c.unpack b = .ok { c with outputs := some v } := by
  unfold Call.unpack
  rw [h, hd]
  simp

/-- Unpack of a flagged (failed) call is a tolerated no-op. -/
lemma unpack_failed {c : Call} (h : c.failed = true) (b : Bytes) :
    c.unpack b = .ok c := by
  unfold Call.unpack
  rw [h]
  simp

/-- Pointwise-equal Boolean observations give equal counts. -/
lemma countP_eq_of_forall2 {α β : Type} (p : α → Bool) (q : β → Bool) :
    ∀ {l1 : List α} {l2 : List β},
      List.Forall₂ (fun a b => p a = q b) l1 l2 → l1.countP p = l2.countP q := by
  intro l1 l2 h
  induction h with
  | nil => rfl
  | cons hab _ ih => simp [List.countP_cons, hab, ih]

/-- A positional predicate can be read off a `Forall₂` at any in-bounds
index. -/
lemma forall2_getD {α β : Type} {R : α → β → Prop} (d : α) (d' : β) :
    ∀ {l1 : List α} {l2 : List β}, List.Forall₂ R l1 l2 →
      ∀ k, k < l2.length → R (l1.getD k d) (l2.getD k d') := by
  intro l1 l2 h
  induction h with
  | nil =>
    intro k hk
    simp at hk
  | cons hab hrest ih =>
    intro k hk
    cases k with
    | zero => simpa using hab
    | succ k =>
      simp only [List.getD_cons_succ]
      refine ih k ?_
      simp only [List.length_cons] at hk
      omega

/-- Equal-length lists with a positional relation at every in-bounds
index are `Forall₂`-related. -/
lemma forall2_of_getD {α β : Type} {R : α → β → Prop} (d : α) (d' : β) :
    ∀ (l1 : List α) (l2 : List β), l1.length = l2.length →
      (∀ k, k < l2.length → R (l1.getD k d) (l2.getD k d')) →
      List.Forall₂ R l1 l2 := by
  intro l1
  induction l1 with
  | nil =>
    intro l2 hlen _
    cases l2 with
    | nil => exact List.Forall₂.nil
    | cons b l2' => simp at hlen
  | cons a l ih =>
    intro l2 hlen hk
    cases l2 with
    | nil => simp at hlen
    | cons b l2' =>
      refine List.Forall₂.cons (by simpa using hk 0 (by simp)) ?_
      refine ih l2' (by simpa using hlen) ?_
      intro k hklt
      have h2 := hk (k + 1) (by simp only [List.length_cons]; omega)
      simpa using h2

/-- Splitting a list's length by a Boolean predicate. -/
lemma countP_bool_split {α : Type} (p : α → Bool) (l : List α) :
    l.countP p + l.countP (fun a => !(p a)) = l.length := by
  induction l with
  | nil => rfl
  | cons a l ih =>
    by_cases h : p a <;> simp [List.countP_cons, h] <;> omega

/-- When every entry reporting success also decodes and every call starts
with empty outputs, the response loop tolerates the failing entries:
no error is reported, failing entries are flagged with outputs left
undecoded, and succeeding entries get decoded outputs. -/
lemma applyResults_tolerant :
    ∀ (results : List AggResult) (calls : List Call) (i : Nat),
      List.Forall₂ (fun (c : Call) (r : AggResult) =>
        c.outputs = none ∧ (r.success = true → ∃ v, c.decode r.returnData = .ok v))
        calls results →
      ∃ calls2, applyResults calls results i = some (calls2, none) ∧
        List.Forall₂ (fun (c2 : Call) (r : AggResult) =>
          c2.failed = !r.success ∧
          (r.success = false → c2.outputs = none) ∧
          (r.success = true → ∃ v, c2.outputs = some v)) calls2 results := by
  intro results
  induction results with
  | nil =>
    intro calls i h
    cases h
    exact ⟨[], rfl, List.Forall₂.nil⟩
  | cons r rs ih =>
    intro calls i h
    cases h with
    | cons hcr hrest =>
      rename_i c cs
      obtain ⟨hout, hdec⟩ := hcr
      obtain ⟨cs2, heqr, hf2⟩ := ih cs (i + 1) hrest
      cases hs : r.success with
      | true =>
        obtain ⟨v, hv⟩ := hdec hs
        have hflag : ({ c with failed := !r.success } : Call).failed = false := by
          rw [hs]
          rfl
        have hstep : ({ c with failed := !r.success } : Call).unpack r.returnData
            = .ok { c with failed := !r.success, outputs := some v } :=
          unpack_not_failed hflag hv
        refine ⟨{ c with failed := !r.success, outputs := some v } :: cs2, ?_, ?_⟩
        · simp only [applyResults]
          rw [hstep, heqr]
        · refine List.Forall₂.cons ⟨rfl, ?_, ?_⟩ hf2
          · intro hfalse
            rw [hs] at hfalse
            cases hfalse
          · intro _
            exact ⟨v, rfl⟩
      | false =>
        have hflag : ({ c with failed := !r.success } : Call).failed = true := by
          rw [hs]
          rfl
        have hstep : ({ c with failed := !r.success } : Call).unpack r.returnData
            = .ok { c with failed := !r.success } :=
          unpack_failed hflag r.returnData
        refine ⟨{ c with failed := !r.success } :: cs2, ?_, ?_⟩
        · simp only [applyResults]
          rw [hstep, heqr]
        · refine List.Forall₂.cons ⟨rfl, ?_, ?_⟩ hf2
          · intro _
            exact hout
          · intro htrue
            rw [hs] at htrue
            cases htrue

/-- C4: in best-effort mode with `requireSuccess = false`, when the
remote `TryAggregate` invocation succeeds (and the succeeding entries
decode, with fresh records), every entry reporting failure yields a
record flagged `failed = true` with outputs left undecoded, every
succeeding entry's record gets decoded outputs, and `Caller.TryCall`
returns with no operation-level error; in particular one failing entry
among otherwise succeeding entries yields exactly one `failed = true`
record and `length - 1` decoded records. -/
theorem best_effort_tolerance
    (caller : Caller) (calls : List Call) (mc : List Multicall3Call)
    (results : List AggResult)
    (hp : packCallsTry calls 0 = .ok mc)
    (ha : caller.contract.tryAggregate false mc = .ok results)
    (hlen : results.length = calls.length)
    (hfresh : ∀ c ∈ calls, c.outputs = none)
    (hdec : ∀ k, k < results.length → (results.getD k dRes).success = true →
      ∃ v, (calls.getD k dCall).decode ((results.getD k dRes).returnData) = .ok v) :
    ∃ calls2, caller.tryCall false calls = some (calls2, none) ∧
      calls2.length = calls.length ∧
      (∀ k, k < results.length →
        (calls2.getD k dCall).failed = !(results.getD k dRes).success) ∧
      (∀ k, k < results.length → (results.getD k dRes).success = false →
        (calls2.getD k dCall).outputs = none) ∧
      (∀ k, k < results.length → (results.getD k dRes).success = true →
        ∃ v, (calls2.getD k dCall).outputs = some v) ∧
      calls2.countP (fun c => c.failed) = results.countP (fun r => !r.success) ∧
      calls2.countP (fun c => c.outputs.isSome) = results.countP (fun r => r.success) ∧
      (results.countP (fun r => !r.success) = 1 →
        calls2.countP (fun c => c.failed) = 1 ∧
        calls2.countP (fun c => c.outputs.isSome) + 1 = calls2.length) := by
  have hin : List.Forall₂ (fun (c : Call) (r : AggResult) =>
      c.outputs = none ∧ (r.success = true → ∃ v, c.decode r.returnData = .ok v))
      calls results := by
    refine forall2_of_getD dCall dRes calls results hlen.symm ?_
    intro k hk
    refine ⟨?_, hdec k hk⟩
    have hklt : k < calls.length := by omega
    rw [List.getD_eq_getElem calls dCall hklt]
    exact hfresh _ (List.getElem_mem hklt)
  obtain ⟨calls2, heqr, hf2⟩ := applyResults_tolerant results calls 0 hin
  have hlen2 : calls2.length = calls.length := by
    have := hf2.length_eq
    omega
  refine ⟨calls2, ?_, hlen2, ?_, ?_, ?_, ?_, ?_, ?_⟩
  · unfold Caller.tryCall
    rw [hp]
    dsimp only
    rw [ha]
    dsimp only
    rw [heqr]
  · intro k hk
    exact (forall2_getD dCall dRes hf2 k hk).1
  · intro k hk hs
    exact (forall2_getD dCall dRes hf2 k hk).2.1 hs
  · intro k hk hs
    exact (forall2_getD dCall dRes hf2 k hk).2.2 hs
  · refine countP_eq_of_forall2 _ _ (hf2.imp ?_)
    intro c2 r hr
    exact hr.1
  · refine countP_eq_of_forall2 _ _ (hf2.imp ?_)
    intro c2 r hr
    cases hs : r.success with
    | true =>
      obtain ⟨v, hv⟩ := hr.2.2 hs
      rw [hv]
      rfl
    | false =>
      rw [hr.2.1 hs]
      rfl
  · intro hone
    have hcf : calls2.countP (fun c => c.failed) = 1 := by
      rw [countP_eq_of_forall2 _ _ (hf2.imp fun c2 r hr => hr.1), hone]
    refine ⟨hcf, ?_⟩
    have hco : calls2.countP (fun c => c.outputs.isSome)
        = results.countP (fun r => r.success) := by
      refine countP_eq_of_forall2 _ _ (hf2.imp ?_)
      intro c2 r hr
      cases hs : r.success with
      | true =>
        obtain ⟨v, hv⟩ := hr.2.2 hs
        rw [hv]
        rfl
      | false =>
        rw [hr.2.1 hs]
        rfl
    have hsplit := countP_bool_split (fun r : AggResult => r.success) results
    have hlr := hf2.length_eq
    simp only [Bool.not_eq_true] at hone hsplit
    omega

/-- Witness for C4: a three-call best-effort batch whose middle entry
reverts. -/
theorem best_effort_tolerance_witness :
    ∃ calls2, callerTryMixed.tryCall false [mkCall 0, mkCall 1, mkCall 2]
        = some (calls2, none) ∧
      calls2.length = 3 ∧
      calls2.countP (fun c => c.failed) = 1 ∧
      calls2.countP (fun c => c.outputs.isSome) + 1 = calls2.length := by
  obtain ⟨calls2, h1, h2, -, -, -, -, -, himp⟩ :=
    best_effort_tolerance callerTryMixed [mkCall 0, mkCall 1, mkCall 2]
      [{ target := 0, callData := [0] }, { target := 1, callData := [1] },
       { target := 2, callData := [2] }]
      [{ success := true, returnData := [5] }, { success := false, returnData := [] },
       { success := true, returnData := [7] }]
      rfl rfl (by decide)
      (by
        intro c hc
        simp only [List.mem_cons] at hc
        rcases hc with rfl | rfl | rfl | hc
        · rfl
        · rfl
        · rfl
        · exact absurd hc (List.not_mem_nil c))
      (by
        intro k hk hs
        simp only [List.length_cons, List.length_nil] at hk
        interval_cases k
        · exact ⟨0, rfl⟩
        · exact absurd hs (by decide)
        · exact ⟨0, rfl⟩)
  have hcounts := himp (by decide)
  exact ⟨calls2, h1, by simpa using h2, hcounts.1, hcounts.2⟩

/-! ### Batch-driver lemmas -/

/-- Replacing an append's first part by an identity-preserving list of
the same length preserves every position's identity. -/
lemma append_getD_congr {l1 m1 : List Call} (t : List Call)
    (hlen : l1.length = m1.length)
    (hid : ∀ k, (l1.getD k dCall).ident = (m1.getD k dCall).ident) :
    ∀ k, ((l1 ++ t).getD k dCall).ident = ((m1 ++ t).getD k dCall).ident := by
  intro k
  rcases Nat.lt_or_ge k l1.length with hk | hk
  · rw [List.getD_append _ _ _ _ hk, List.getD_append _ _ _ _ (by omega)]
    exact hid k
  · rw [List.getD_append_right _ _ _ _ hk, List.getD_append_right _ _ _ _ (by omega), hlen]

/-- Replacing an append's second part by a pointwise identity-preserving
list preserves every position's identity. -/
lemma append_getD_congr_suffix (pre : List Call) {x y : List Call}
    (hid : ∀ k, (x.getD k dCall).ident = (y.getD k dCall).ident) :
    ∀ k, ((pre ++ x).getD k dCall).ident = ((pre ++ y).getD k dCall).ident := by
  intro k
  rcases Nat.lt_or_ge k pre.length with hk | hk
  · rw [List.getD_append _ _ _ _ hk, List.getD_append _ _ _ _ hk]
  · rw [List.getD_append_right _ _ _ _ hk, List.getD_append_right _ _ _ _ hk]
    exact hid (k - pre.length)

/-- A pacing list never contains a submit event. -/
lemma submit_not_mem_pacing {j : Nat} {i : Nat} {d : Int}
    (hc : Ev.submit j ∈ (if 0 < i ∧ 0 < d then [Ev.sleep d] else [])) : False := by
  by_cases h : 0 < i ∧ 0 < d
  · rw [if_pos h] at hc
    simp at hc
  · rw [if_neg h] at hc
    simp at hc

/-- If the chunk loop ends in an error, the error is chunk-indexed, the
returned list is the (outcome-mutated) full original list — same length,
same identities as `acc ++ chunks.flatten` — and no chunk after the
failing index was submitted. -/
lemma runChunks_err (step : List Call → Option (List Call × Option CallError))
    (hstep : ∀ cs cs2 st, step cs = some (cs2, st) →
      cs2.length = cs.length ∧
      ∀ k, (cs2.getD k dCall).ident = (cs.getD k dCall).ident)
    (cooldown : Int) :
    ∀ (chunks : List (List Call)) (i : Nat) (acc res : List Call)
      (err : CallError) (tr : List Ev),
      runChunks step cooldown i chunks acc = some ((res, some err), tr) →
      ∃ i2 e, err = .chunkErr i2 e ∧ i ≤ i2 ∧
        res.length = acc.length + chunks.flatten.length ∧
        (∀ k, (res.getD k dCall).ident = ((acc ++ chunks.flatten).getD k dCall).ident) ∧
        (∀ j, Ev.submit j ∈ tr → i ≤ j ∧ j ≤ i2) := by
  intro chunks
  induction chunks with
  | nil =>
    intro i acc res err tr h
    rw [runChunks] at h
    exact absurd h (by simp)
  | cons chunk rest ih =>
    intro i acc res err tr h
    rw [runChunks] at h
    cases hs : step chunk with
    | none =>
      rw [hs] at h
      exact absurd h (by simp)
    | some out =>
      obtain ⟨chunk2, st⟩ := out
      rw [hs] at h
      obtain ⟨hl, hid⟩ := hstep chunk chunk2 st hs
      cases st with
      | some e =>
        dsimp only at h
        injection h with h2
        injection h2 with h3 h4
        injection h3 with h5 h6
        injection h6 with h7
        subst h5
        subst h7
        subst h4
        refine ⟨i, e, rfl, Nat.le_refl i, ?_, ?_, ?_⟩
        · simp [hl]
        · simp only [List.flatten_cons]
          intro k
          rw [List.append_assoc]
          exact append_getD_congr_suffix acc
            (append_getD_congr rest.flatten hl hid) k
        · intro j hj
          rcases List.mem_append.mp hj with hj | hj
          · exact absurd hj submit_not_mem_pacing
          · have : j = i := by simpa using hj
            omega
      | none =>
        dsimp only at h
        cases hr : runChunks step cooldown (i + 1) rest (acc ++ chunk2) with
        | none =>
          rw [hr] at h
          exact absurd h (by simp)
        | some out2 =>
          obtain ⟨out2r, evs⟩ := out2
          obtain ⟨resl, st2⟩ := out2r
          rw [hr] at h
          injection h with h2
          injection h2 with h3 h4
          injection h3 with h5 h6
          subst h4
          subst h6
          rw [← h5]
          obtain ⟨i2, e, herr, hile, hlen2, hid2, hsub⟩ :=
            ih (i + 1) (acc ++ chunk2) resl err evs hr
          refine ⟨i2, e, herr, by omega, ?_, ?_, ?_⟩
          · simp only [List.length_append] at hlen2
            simp only [List.flatten_cons, List.length_append]
            omega
          · intro k
            refine (hid2 k).trans ?_
            have hstep1 := append_getD_congr (t := rest.flatten) hl hid
            rw [List.flatten_cons, List.append_assoc]
            exact append_getD_congr_suffix acc hstep1 k
          · intro j hj
            rcases List.mem_append.mp hj with hj | hj
            · rcases List.mem_append.mp hj with hj | hj
              · exact absurd hj submit_not_mem_pacing
              · have : j = i := by simpa using hj
                omega
            · have := hsub j hj
              omega

/-- The chunk loop's event trace is exactly the paced trace of the
number of chunks it processed; a run that returns no error processed
every chunk. -/
lemma runChunks_trace (step : List Call → Option (List Call × Option CallError))
    (cooldown : Int) :
    ∀ (chunks : List (List Call)) (i : Nat) (acc : List Call)
      (out : List Call × Option CallError) (tr : List Ev),
      runChunks step cooldown i chunks acc = some (out, tr) →
      ∃ K, K ≤ chunks.length ∧ (out.2 = none → K = chunks.length) ∧
        tr = pacedTraceFrom cooldown i K := by
  intro chunks
  induction chunks with
  | nil =>
    intro i acc out tr h
    rw [runChunks] at h
    injection h with h2
    injection h2 with h3 h4
    subst h3
    subst h4
    exact ⟨0, Nat.le_refl 0, fun _ => rfl, rfl⟩
  | cons chunk rest ih =>
    intro i acc out tr h
    rw [runChunks] at h
    cases hs : step chunk with
    | none =>
      rw [hs] at h
      exact absurd h (by simp)
    | some out1 =>
      obtain ⟨chunk2, st⟩ := out1
      rw [hs] at h
      cases st with
      | some e =>
        dsimp only at h
        injection h with h2
        injection h2 with h3 h4
        subst h3
        subst h4
        refine ⟨1, by simp, ?_, ?_⟩
        · intro hco
          exact absurd hco (by simp)
        · simp [pacedTraceFrom]
      | none =>
        dsimp only at h
        cases hr : runChunks step cooldown (i + 1) rest (acc ++ chunk2) with
        | none =>
          rw [hr] at h
          exact absurd h (by simp)
        | some out2 =>
          obtain ⟨out2r, evs⟩ := out2
          rw [hr] at h
          injection h with h2
          injection h2 with h3 h4
          subst h3
          subst h4
          obtain ⟨K, hK, hKfull, htr⟩ := ih (i + 1) (acc ++ chunk2) out2r evs hr
          refine ⟨K + 1, by simp; omega, ?_, ?_⟩
          · intro hco
            have := hKfull hco
            simp only [List.length_cons]
            omega
          · rw [pacedTraceFrom, htr]

/-- Positive pacing: a paced trace starting strictly after the first
chunk has one sleep per chunk. -/
lemma countP_paced_pos {d : Int} (hd : 0 < d) :
    ∀ (K start : Nat), 0 < start →
      (pacedTraceFrom d start K).countP Ev.isSleep = K := by
  intro K
  induction K with
  | zero =>
    intro start _
    rfl
  | succ K ih =>
    intro start hstart
    have s1 : List.countP Ev.isSleep [Ev.sleep d] = 1 := rfl
    have s2 : List.countP Ev.isSleep [Ev.submit start] = 0 := rfl
    rw [pacedTraceFrom, if_pos ⟨hstart, hd⟩]
    simp only [List.countP_append, ih (start + 1) (by omega), s1, s2]
    omega

/-- Positive pacing: a whole paced trace over `K` chunks has `K - 1`
sleeps. -/
lemma countP_paced_zero {d : Int} (hd : 0 < d) (K : Nat) :
    (pacedTrace d K).countP Ev.isSleep = K - 1 := by
  cases K with
  | zero => rfl
  | succ K =>
    unfold pacedTrace
    have s0 : List.countP Ev.isSleep ([] : List Ev) = 0 := rfl
    have s2 : List.countP Ev.isSleep [Ev.submit 0] = 0 := rfl
    rw [pacedTraceFrom, if_neg (by simp)]
    simp only [List.countP_append, countP_paced_pos hd K 1 (by omega), s0, s2]
    omega

/-- Non-positive cooldown: no sleeps at all. -/
lemma countP_paced_nonpos {d : Int} (hd : ¬ 0 < d) :
    ∀ (K start : Nat), (pacedTraceFrom d start K).countP Ev.isSleep = 0 := by
  intro K
  induction K with
  | zero =>
    intro start
    rfl
  | succ K ih =>
    intro start
    have s0 : List.countP Ev.isSleep ([] : List Ev) = 0 := rfl
    have s2 : List.countP Ev.isSleep [Ev.submit start] = 0 := rfl
    rw [pacedTraceFrom, if_neg (fun hc => hd hc.2)]
    simp only [List.countP_append, ih (start + 1), s0, s2]

/-- C3: if a chunked operation (strict or best-effort) fails on some
chunk, it aborts with a chunk-indexed error wrapping the underlying
cause, returns the original unchunked calls list — full length, every
record's identity preserved, not the partial concatenation — and no
chunk after the failing one is submitted. -/
theorem chunked_error_abort :
    (∀ (caller : Caller) (chunkSize cooldown : Int) (calls res : List Call)
        (err : CallError) (tr : List Ev),
      caller.callChunked chunkSize cooldown calls = some ((res, some err), tr) →
      ∃ i e, err = .chunkErr i e ∧
        res.length = calls.length ∧
        (∀ k, (res.getD k dCall).ident = (calls.getD k dCall).ident) ∧
        (∀ j, Ev.submit j ∈ tr → j ≤ i)) ∧
    (∀ (caller : Caller) (rs : Bool) (chunkSize cooldown : Int) (calls res : List Call)
        (err : CallError) (tr : List Ev),
      caller.tryCallChunked rs chunkSize cooldown calls = some ((res, some err), tr) →
      ∃ i e, err = .chunkErr i e ∧
        res.length = calls.length ∧
        (∀ k, (res.getD k dCall).ident = (calls.getD k dCall).ident) ∧
        (∀ j, Ev.submit j ∈ tr → j ≤ i)) := by
  constructor
  · intro caller chunkSize cooldown calls res err tr h
    unfold Caller.callChunked at h
    obtain ⟨i2, e, herr, -, hlen, hid, hsub⟩ :=
      runChunks_err caller.call (fun cs cs2 st hs => call_shape caller cs cs2 st hs)
        cooldown (chunkInputs chunkSize calls) 0 [] res err tr h
    rw [chunkInputs_flatten] at hlen hid
    refine ⟨i2, e, herr, by simpa using hlen, ?_, fun j hj => (hsub j hj).2⟩
    intro k
    simpa using hid k
  · intro caller rs chunkSize cooldown calls res err tr h
    unfold Caller.tryCallChunked at h
    obtain ⟨i2, e, herr, -, hlen, hid, hsub⟩ :=
      runChunks_err (caller.tryCall rs) (fun cs cs2 st hs => tryCall_shape caller rs cs cs2 st hs)
        cooldown (chunkInputs chunkSize calls) 0 [] res err tr h
    rw [chunkInputs_flatten] at hlen hid
    refine ⟨i2, e, herr, by simpa using hlen, ?_, fun j hj => (hsub j hj).2⟩
    intro k
    simpa using hid k

/-- Witness for C3: two single-call chunks against an always-failing
contract binding; the first chunk already fails. -/
theorem chunked_error_abort_witness :
    (∃ i e, CallError.chunkErr 0 (.remoteErr "boom") = .chunkErr i e ∧
      ([mkCall 0, mkCall 1] : List Call).length
        = ([mkCall 0, mkCall 1] : List Call).length ∧
      (∀ k, ((([mkCall 0, mkCall 1] : List Call)).getD k dCall).ident
          = ((([mkCall 0, mkCall 1] : List Call)).getD k dCall).ident) ∧
      (∀ j, Ev.submit j ∈ [Ev.submit 0] → j ≤ i)) ∧
    (∃ i e, CallError.chunkErr 0 (.remoteErr "boom") = .chunkErr i e ∧
      ([mkCall 0, mkCall 1] : List Call).length
        = ([mkCall 0, mkCall 1] : List Call).length ∧
      (∀ k, ((([mkCall 0, mkCall 1] : List Call)).getD k dCall).ident
          = ((([mkCall 0, mkCall 1] : List Call)).getD k dCall).ident) ∧
      (∀ j, Ev.submit j ∈ [Ev.submit 0] → j ≤ i)) :=
  ⟨chunked_error_abort.1 callerFail 1 0 [mkCall 0, mkCall 1] [mkCall 0, mkCall 1]
      (.chunkErr 0 (.remoteErr "boom")) [Ev.submit 0] rfl,
   chunked_error_abort.2 callerFail true 1 0 [mkCall 0, mkCall 1] [mkCall 0, mkCall 1]
      (.chunkErr 0 (.remoteErr "boom")) [Ev.submit 0] rfl⟩

/-- C8: a chunked operation's event trace is exactly the paced trace:
one submission per processed chunk in order, preceded by a sleep of the
cooldown duration for every chunk except the first.  With positive
cooldown a run over `K` chunks performs exactly `K - 1` sleeps (all
chunks when the run returns no error), and with non-positive cooldown no
sleep occurs. -/
theorem pacing_trace :
    (∀ (caller : Caller) (chunkSize cooldown : Int) (calls : List Call)
        (out : List Call × Option CallError) (tr : List Ev),
      caller.callChunked chunkSize cooldown calls = some (out, tr) →
      ∃ K, K ≤ (chunkInputs chunkSize calls).length ∧
        (out.2 = none → K = (chunkInputs chunkSize calls).length) ∧
        tr = pacedTrace cooldown K ∧
        (0 < cooldown → tr.countP Ev.isSleep = K - 1) ∧
        (cooldown ≤ 0 → tr.countP Ev.isSleep = 0)) ∧
    (∀ (caller : Caller) (rs : Bool) (chunkSize cooldown : Int) (calls : List Call)
        (out : List Call × Option CallError) (tr : List Ev),
      caller.tryCallChunked rs chunkSize cooldown calls = some (out, tr) →
      ∃ K, K ≤ (chunkInputs chunkSize calls).length ∧
        (out.2 = none → K = (chunkInputs chunkSize calls).length) ∧
        tr = pacedTrace cooldown K ∧
        (0 < cooldown → tr.countP Ev.isSleep = K - 1) ∧
        (cooldown ≤ 0 → tr.countP Ev.isSleep = 0)) := by
  constructor
  · intro caller chunkSize cooldown calls out tr h
    unfold Caller.callChunked at h
    obtain ⟨K, hK, hKfull, htr⟩ :=
      runChunks_trace caller.call cooldown (chunkInputs chunkSize calls) 0 [] out tr h
    refine ⟨K, hK, hKfull, htr, ?_, ?_⟩
    · intro hd
      rw [htr]
      exact countP_paced_zero hd K
    · intro hd
      rw [htr]
      exact countP_paced_nonpos (by omega) K 0
  · intro caller rs chunkSize cooldown calls out tr h
    unfold Caller.tryCallChunked at h
    obtain ⟨K, hK, hKfull, htr⟩ :=
      runChunks_trace (caller.tryCall rs) cooldown (chunkInputs chunkSize calls) 0 [] out tr h
    refine ⟨K, hK, hKfull, htr, ?_, ?_⟩
    · intro hd
      rw [htr]
      exact countP_paced_zero hd K
    · intro hd
      rw [htr]
      exact countP_paced_nonpos (by omega) K 0

/-- Witness for C8: five calls, chunk size two, cooldown 7 against an
all-success contract binding — three chunks, two sleeps. -/
theorem pacing_trace_witness :
    ∃ K, K ≤ (chunkInputs 2 [mkCall 0, mkCall 1, mkCall 2, mkCall 3, mkCall 4]).length ∧
      ((([{ mkCall 0 with outputs := some 0 }, { mkCall 1 with outputs := some 0 },
           { mkCall 2 with outputs := some 0 }, { mkCall 3 with outputs := some 0 },
           { mkCall 4 with outputs := some 0 }],
          (none : Option CallError)) : List Call × Option CallError).2 = none →
        K = (chunkInputs 2 [mkCall 0, mkCall 1, mkCall 2, mkCall 3, mkCall 4]).length) ∧
      [Ev.submit 0, Ev.sleep 7, Ev.submit 1, Ev.sleep 7, Ev.submit 2] = pacedTrace 7 K ∧
      (0 < (7 : Int) →
        List.countP Ev.isSleep
          [Ev.submit 0, Ev.sleep 7, Ev.submit 1, Ev.sleep 7, Ev.submit 2] = K - 1) ∧
      ((7 : Int) ≤ 0 →
        List.countP Ev.isSleep
          [Ev.submit 0, Ev.sleep 7, Ev.submit 1, Ev.sleep 7, Ev.submit 2] = 0) :=
  pacing_trace.1 callerOk 2 7 [mkCall 0, mkCall 1, mkCall 2, mkCall 3, mkCall 4]
    ([{ mkCall 0 with outputs := some 0 }, { mkCall 1 with outputs := some 0 },
      { mkCall 2 with outputs := some 0 }, { mkCall 3 with outputs := some 0 },
      { mkCall 4 with outputs := some 0 }], none)
    [Ev.submit 0, Ev.sleep 7, Ev.submit 1, Ev.sleep 7, Ev.submit 2]
    (by
      have hch : chunkInputs 2 [mkCall 0, mkCall 1, mkCall 2, mkCall 3, mkCall 4]
          = [[mkCall 0, mkCall 1], [mkCall 2, mkCall 3], [mkCall 4]] := by
        norm_num [chunkInputs]
        rfl
      unfold Caller.callChunked
      rw [hch]
      rfl)

/-- Counterexample for C9: five fresh calls, chunk size two, against a
binding whose chunks 0 and 1 succeed (with per-entry failure reports)
and whose third chunk fails remotely.  The error does identify chunk
index 2, but the returned list is not the unmodified original: the
records of chunks 0 and 1 now carry `failed = true`. -/
theorem concrete_scenario_counterexample :
    (callerC9.callChunked 2 0 [mkCall 0, mkCall 1, mkCall 2, mkCall 3, mkCall 4]).map
        (fun out => (out.1.1.map Call.failed, out.1.2, out.2))
      = some ([true, true, true, true, false],
          some (.chunkErr 2 (.remoteErr "boom")),
          [Ev.submit 0, Ev.submit 1, Ev.submit 2]) ∧
    ([mkCall 0, mkCall 1, mkCall 2, mkCall 3, mkCall 4].map Call.failed
      = [false, false, false, false, false]) := by
  have hch : chunkInputs 2 [mkCall 0, mkCall 1, mkCall 2, mkCall 3, mkCall 4]
      = [[mkCall 0, mkCall 1], [mkCall 2, mkCall 3], [mkCall 4]] := by
    norm_num [chunkInputs]
    rfl
  constructor
  · unfold Caller.callChunked
    rw [hch]
    rfl
  · rfl

/-- C9 (amended): five calls with chunk size 2 in strict mode split into
chunks of sizes [2,2,1]; if the first two chunks succeed and the remote
invocation for the third chunk (index 2) fails, `CallChunked` returns an
error identifying chunk index 2 wrapping the remote cause, and the
returned list is the original five-record list — full length, order and
identities preserved — whose failing-chunk record (index 4) is
unmodified, while the records of the already-processed chunks 0 and 1
retain the outcomes written by their successful aggregation; no chunk
after index 2 is submitted. -/
theorem concrete_scenario_amended
    (caller : Caller) (c0 c1 c2 c3 c4 : Call) (chunk0 chunk1 : List Call) (e : Err)
    (h0 : caller.call [c0, c1] = some (chunk0, none))
    (h1 : caller.call [c2, c3] = some (chunk1, none))
    (h2 : caller.call [c4] = some ([c4], some (.remoteErr e))) :
    caller.callChunked 2 0 [c0, c1, c2, c3, c4]
        = some ((chunk0 ++ chunk1 ++ [c4], some (.chunkErr 2 (.remoteErr e))),
            [Ev.submit 0, Ev.submit 1, Ev.submit 2]) ∧
    (chunk0 ++ chunk1 ++ [c4]).length = 5 ∧
    (∀ k, ((chunk0 ++ chunk1 ++ [c4]).getD k dCall).ident
        = (([c0, c1, c2, c3, c4] : List Call).getD k dCall).ident) ∧
    (chunk0 ++ chunk1 ++ [c4]).getD 4 dCall = c4 := by
  obtain ⟨hl0, hid0⟩ := call_shape caller [c0, c1] chunk0 none h0
  obtain ⟨hl1, hid1⟩ := call_shape caller [c2, c3] chunk1 none h1
  have h20 : chunk0.length = 2 := by simpa using hl0
  have h21 : chunk1.length = 2 := by simpa using hl1
  have hchunks : chunkInputs 2 [c0, c1, c2, c3, c4] = [[c0, c1], [c2, c3], [c4]] := by
    norm_num [chunkInputs]
    rfl
  refine ⟨?_, ?_, ?_, ?_⟩
  · unfold Caller.callChunked
    rw [hchunks, runChunks, h0]
    dsimp only
    rw [runChunks, h1]
    dsimp only
    rw [runChunks, h2]
    dsimp only
    simp
  · simp [List.length_append, h20, h21]
  · intro k
    have step1 : ∀ k, ((chunk0 ++ (chunk1 ++ [c4])).getD k dCall).ident
        = (([c0, c1] ++ (chunk1 ++ [c4])).getD k dCall).ident :=
      append_getD_congr (chunk1 ++ [c4]) hl0 hid0
    have step2inner : ∀ k, ((chunk1 ++ [c4]).getD k dCall).ident
        = (([c2, c3] ++ [c4]).getD k dCall).ident :=
      append_getD_congr [c4] hl1 hid1
    have step2 : ∀ k, (([c0, c1] ++ (chunk1 ++ [c4])).getD k dCall).ident
        = (([c0, c1] ++ ([c2, c3] ++ [c4])).getD k dCall).ident :=
      append_getD_congr_suffix [c0, c1] step2inner
    calc ((chunk0 ++ chunk1 ++ [c4]).getD k dCall).ident
        = ((chunk0 ++ (chunk1 ++ [c4])).getD k dCall).ident := by rw [List.append_assoc]
      _ = (([c0, c1] ++ (chunk1 ++ [c4])).getD k dCall).ident := step1 k
      _ = (([c0, c1] ++ ([c2, c3] ++ [c4])).getD k dCall).ident := step2 k
      _ = (([c0, c1, c2, c3, c4] : List Call).getD k dCall).ident := rfl
  · have h4 : (chunk0 ++ chunk1 ++ [c4]).getD 4 dCall = [c4].getD 0 dCall := by
      rw [List.append_assoc, List.getD_append_right _ _ _ _ (by omega),
        List.getD_append_right _ _ _ _ (by omega)]
      congr 1
      omega
    simpa using h4

/-- Witness for the amended C9 at the concrete scenario contract. -/
theorem concrete_scenario_amended_witness :
    callerC9.callChunked 2 0 [mkCall 0, mkCall 1, mkCall 2, mkCall 3, mkCall 4]
        = some (([{ mkCall 0 with failed := true }, { mkCall 1 with failed := true }]
              ++ [{ mkCall 2 with failed := true }, { mkCall 3 with failed := true }]
              ++ [mkCall 4],
            some (.chunkErr 2 (.remoteErr "boom"))),
            [Ev.submit 0, Ev.submit 1, Ev.submit 2]) ∧
    ([{ mkCall 0 with failed := true }, { mkCall 1 with failed := true }]
        ++ [{ mkCall 2 with failed := true }, { mkCall 3 with failed := true }]
        ++ [mkCall 4]).length = 5 ∧
    (∀ k, (([{ mkCall 0 with failed := true }, { mkCall 1 with failed := true }]
        ++ [{ mkCall 2 with failed := true }, { mkCall 3 with failed := true }]
        ++ [mkCall 4]).getD k dCall).ident
        = (([mkCall 0, mkCall 1, mkCall 2, mkCall 3, mkCall 4] : List Call).getD k dCall).ident) ∧
    ([{ mkCall 0 with failed := true }, { mkCall 1 with failed := true }]
        ++ [{ mkCall 2 with failed := true }, { mkCall 3 with failed := true }]
        ++ [mkCall 4]).getD 4 dCall = mkCall 4 :=
  concrete_scenario_amended callerC9 (mkCall 0) (mkCall 1) (mkCall 2) (mkCall 3) (mkCall 4)
    [{ mkCall 0 with failed := true }, { mkCall 1 with failed := true }]
    [{ mkCall 2 with failed := true }, { mkCall 3 with failed := true }]
    "boom" rfl rfl rfl

end Multicall
